import Mathlib

/-!
Verification development for the transactional graph-document core of the
maxGraph repository: the `ChildChange` undoable change record and the
folding, editing and terminal-query mixins.

The mutable object graph of the source is embedded shallowly: cells are
identified by natural numbers and a document state is a total map from
cell ids to cell records.  Functions of the source that are present in the
reviewed files (`ChildChange.execute`, `ChildChange.connect`,
`FoldingMixin.cellsFolded`, `FoldingMixin.swapBounds`,
`FoldingMixin.getFoldableCells`, `FoldingMixin.isCellFoldable`,
`EditingMixin.isCellEditable`, `TerminalMixin.getOpposites`) are translated
line by line.  Collaborator operations of the document model that the
reviewed files call but whose sources are not part of the review
(`parentForCellChanged`, `terminalForCellChanged`, `setCollapsed`,
`setGeometry`, `filterCells`, the `Cell` accessors) are modelled from the
specification; each such definition carries a doc comment saying so.
-/

/-! ## List helpers

JavaScript array primitives used by the modelled cell operations:
`splice(i, 0, x)` (insertion at an index, clamped to the array length),
removal of the first occurrence of a value, and `indexOf`.
-/

/-- Insertion at an index, after the JS `splice(i, 0, x)`: positions past
the end append at the end. -/
def insertAtJS (i : Nat) (x : Nat) (l : List Nat) : List Nat :=
  l.take i ++ x :: l.drop i

/-- Removal of the first occurrence of a value from a list. -/
def eraseFirst : List Nat → Nat → List Nat
  | [], _ => []
  | a :: t, c => if a = c then t else a :: eraseFirst t c

/-- Modelled from the spec: `getIndex(child)` returns the position of a
child in the parent's ordered child sequence.  The spec keeps every stored
index inside `[0, childCount)`, so only positions of present children are
ever used; for an absent value this returns the list length. -/
def getIndexJS : List Nat → Nat → Nat
  | [], _ => 0
  | a :: t, c => if a = c then 0 else getIndexJS t c + 1

theorem insertAtJS_getIndexJS_eraseFirst {l : List Nat} {c : Nat} (h : c ∈ l) :
    insertAtJS (getIndexJS l c) c (eraseFirst l c) = l := by
  induction l with
  | nil => cases h
  | cons a t ih =>
    by_cases hac : a = c
    · subst hac
      simp [getIndexJS, eraseFirst, insertAtJS]
    · have hct : c ∈ t := by
        cases List.mem_cons.mp h with
        | inl h1 => exact absurd h1.symm hac
        | inr h2 => exact h2
      simp only [getIndexJS, eraseFirst, if_neg hac]
      simpa [insertAtJS] using congrArg (List.cons a) (ih hct)

theorem eraseFirst_insertAtJS {l : List Nat} {c : Nat} (i : Nat) (h : c ∉ l) :
    eraseFirst (insertAtJS i c l) c = l := by
  induction l generalizing i with
  | nil =>
    simp [insertAtJS, eraseFirst]
  | cons a t ih =>
    have hac : a ≠ c := fun hh => h (hh ▸ List.mem_cons_self a t)
    have hct : c ∉ t := fun hh => h (List.mem_cons_of_mem a hh)
    cases i with
    | zero => simp [insertAtJS, eraseFirst]
    | succ j =>
      simp only [insertAtJS, List.take_succ_cons, List.drop_succ_cons, List.cons_append,
        eraseFirst, if_neg hac]
      simpa [insertAtJS] using congrArg (List.cons a) (ih j hct)

theorem not_mem_eraseFirst_self {l : List Nat} {c : Nat} (h : l.Nodup) :
    c ∉ eraseFirst l c := by
  induction l with
  | nil => simp [eraseFirst]
  | cons a t ih =>
    by_cases hac : a = c
    · subst hac
      simpa [eraseFirst] using (List.nodup_cons.mp h).1
    · simp only [eraseFirst, if_neg hac]
      intro hmem
      cases List.mem_cons.mp hmem with
      | inl h1 => exact hac h1.symm
      | inr h2 => exact ih (List.nodup_cons.mp h).2 h2

theorem mem_eraseFirst_imp {x : Nat} {l : List Nat} {c : Nat}
    (h : x ∈ eraseFirst l c) : x ∈ l := by
  induction l with
  | nil => simpa [eraseFirst] using h
  | cons a t ih =>
    by_cases hac : a = c
    · exact List.mem_cons_of_mem a (by simpa [eraseFirst, hac] using h)
    · simp only [eraseFirst, if_neg hac] at h
      cases List.mem_cons.mp h with
      | inl h1 => exact h1 ▸ List.mem_cons_self a t
      | inr h2 => exact List.mem_cons_of_mem a (ih h2)

theorem nodup_eraseFirst {l : List Nat} (c : Nat) (h : l.Nodup) :
    (eraseFirst l c).Nodup := by
  induction l with
  | nil => simpa [eraseFirst] using h
  | cons a t ih =>
    rcases List.nodup_cons.mp h with ⟨ha, ht⟩
    by_cases hac : a = c
    · simpa [eraseFirst, hac] using ht
    · simp only [eraseFirst, if_neg hac]
      refine List.nodup_cons.mpr ⟨?_, ih ht⟩
      intro hmem
      exact ha (mem_eraseFirst_imp hmem)

/-! ## The document data model -/

/-- A cell of the document: parent link, ordered children, the two terminal
references of an edge, the incident-edges view, the collapsed flag and a
reference into the geometry heap. -/
@[ext]
structure CellObj where
  parent : Option Nat
  children : List Nat
  source : Option Nat
  target : Option Nat
  edges : List Nat
  collapsed : Bool
  geometry : Option Nat
deriving DecidableEq, Repr

/-- A geometry rectangle. -/
structure Rect where
  x : Int
  y : Int
  width : Int
  height : Int
deriving DecidableEq, Repr

/-- Modelled from the spec: a geometry value with the optional alternate
bounds that are used when the owning cell is collapsed. -/
structure Geom where
  x : Int
  y : Int
  width : Int
  height : Int
  alternateBounds : Option Rect
deriving DecidableEq, Repr

/-- Modelled from the spec: `Geometry.swap` exchanges the bounds with the
alternate bounds when the latter are present. -/
def Geom.swap (g : Geom) : Geom :=
  match g.alternateBounds with
  | none => g
  | some a =>
      { x := a.x, y := a.y, width := a.width, height := a.height,
        alternateBounds := some ⟨g.x, g.y, g.width, g.height⟩ }

/-- A document state: the cell heap, the geometry heap and the geometry
allocator counter.  Geometry objects live in their own heap so that object
identity (clone versus in-place mutation) is observable. -/
structure Model where
  cells : Nat → CellObj
  geoms : Nat → Geom
  nextGeom : Nat

/-- Point update of the cell heap. -/
def updCell (m : Model) (c : Nat) (f : CellObj → CellObj) : Model :=
  { m with cells := fun x => if x = c then f (m.cells c) else m.cells x }

theorem updCell_cells (m : Model) (c : Nat) (f : CellObj → CellObj) (x : Nat) :
    (updCell m c f).cells x = if x = c then f (m.cells c) else m.cells x := rfl

theorem updCell_geoms (m : Model) (c : Nat) (f : CellObj → CellObj) :
    (updCell m c f).geoms = m.geoms := rfl

theorem updCell_nextGeom (m : Model) (c : Nat) (f : CellObj → CellObj) :
    (updCell m c f).nextGeom = m.nextGeom := rfl

/-- A cell record with its incident-edges view forgotten; equality of these
projections says two states agree on everything except the edge lists. -/
def sansE (o : CellObj) : CellObj :=
  { o with edges := [] }

theorem sansE_parent {o o' : CellObj} (h : sansE o = sansE o') :
    o.parent = o'.parent := by
  have := congrArg CellObj.parent h; simpa [sansE] using this

theorem sansE_children {o o' : CellObj} (h : sansE o = sansE o') :
    o.children = o'.children := by
  have := congrArg CellObj.children h; simpa [sansE] using this

theorem sansE_source {o o' : CellObj} (h : sansE o = sansE o') :
    o.source = o'.source := by
  have := congrArg CellObj.source h; simpa [sansE] using this

theorem sansE_target {o o' : CellObj} (h : sansE o = sansE o') :
    o.target = o'.target := by
  have := congrArg CellObj.target h; simpa [sansE] using this

theorem sansE_collapsed {o o' : CellObj} (h : sansE o = sansE o') :
    o.collapsed = o'.collapsed := by
  have := congrArg CellObj.collapsed h; simpa [sansE] using this

theorem sansE_geometry {o o' : CellObj} (h : sansE o = sansE o') :
    o.geometry = o'.geometry := by
  have := congrArg CellObj.geometry h; simpa [sansE] using this

/-! ## Modelled document-model operations -/

/-- The terminal accessor of a cell: source when the flag is true, target
otherwise. -/
def getTerminalF (o : CellObj) (isSource : Bool) : Option Nat :=
  if isSource then o.source else o.target

/-- The terminal mutator of a cell; a plain field write, per the spec's
contract that `Cell` mutators do no side book-keeping. -/
def setTerminalF (m : Model) (c : Nat) (t : Option Nat) (isSource : Bool) : Model :=
  updCell m c (fun o => if isSource then { o with source := t } else { o with target := t })

/-- Removal of an edge from a cell's incident-edges view; skipped when the
edge's other endpoint is still this cell, so a self-loop keeps its single
entry. -/
def updEdgesErase (m : Model) (p e : Nat) : Model :=
  updCell m p (fun o => { o with edges := eraseFirst o.edges e })

/-- Addition of an edge to a cell's incident-edges view, deduplicated. -/
def updEdgesAdd (m : Model) (p e : Nat) : Model :=
  if e ∈ (m.cells p).edges then m
  else updCell m p (fun o => { o with edges := o.edges ++ [e] })

/-- Modelled from the spec: `GraphDataModel.terminalForCellChanged` (not
among the reviewed sources) sets the edge's terminal reference to the given
value, keeps the terminal cell's incident-edges view consistent with the
terminal references, and returns the previous terminal. -/
def terminalForCellChanged (m : Model) (edge : Nat) (t : Option Nat) (isSource : Bool) :
    Model × Option Nat :=
  let prev := getTerminalF (m.cells edge) isSource
  let other := getTerminalF (m.cells edge) (!isSource)
  match t, prev with
  | some tc, some p =>
      let m1 := if p ≠ tc ∧ other ≠ some p then updEdgesErase m p edge else m
      (updEdgesAdd (setTerminalF m1 edge (some tc) isSource) tc edge, prev)
  | some tc, none =>
      (updEdgesAdd (setTerminalF m edge (some tc) isSource) tc edge, prev)
  | none, some p =>
      let m1 := if other ≠ some p then updEdgesErase m p edge else m
      (setTerminalF m1 edge none isSource, prev)
  | none, none => (m, prev)

/-- Modelled from the spec: `GraphDataModel.parentForCellChanged` (not
among the reviewed sources) detaches the cell from its previous parent's
child sequence, sets its parent link, attaches it at the requested index of
the new parent's child sequence when the new parent is non-null, and
returns the previous parent. -/
def parentForCellChanged (m : Model) (cell : Nat) (par : Option Nat) (idx : Nat) :
    Model × Option Nat :=
  let prev := (m.cells cell).parent
  let m1 := match prev with
    | some p => updCell m p (fun o => { o with children := eraseFirst o.children cell })
    | none => m
  let m2 := updCell m1 cell (fun o => { o with parent := par })
  let m3 := match par with
    | some p => updCell m2 p (fun o => { o with children := insertAtJS idx cell o.children })
    | none => m2
  (m3, prev)

/-- A change record produced by the attribute setters that the folding
mixin drives. -/
inductive Chg where
  | collapse (cell : Nat) (value : Bool)
  | geom (cell : Nat) (previousG nextG : Option Nat)
deriving DecidableEq, Repr

/-- Modelled from the spec: `GraphDataModel.setCollapsed` (not among the
reviewed sources) is a no-op when the new value equals the current one and
otherwise applies the change and records it. -/
def setCollapsedM (m : Model) (recs : List Chg) (cell : Nat) (b : Bool) :
    Model × List Chg :=
  if (m.cells cell).collapsed = b then (m, recs)
  else (updCell m cell (fun o => { o with collapsed := b }), recs ++ [Chg.collapse cell b])

/-- Modelled from the spec: `GraphDataModel.setGeometry` (not among the
reviewed sources) is a no-op when the new geometry object is the current
one and otherwise stores the reference and records the change. -/
def setGeometryM (m : Model) (recs : List Chg) (cell : Nat) (g : Option Nat) :
    Model × List Chg :=
  if (m.cells cell).geometry = g then (m, recs)
  else (updCell m cell (fun o => { o with geometry := g }),
        recs ++ [Chg.geom cell ((m.cells cell).geometry) g])

/-- Allocation of a fresh geometry object holding the given value; this is
how a clone enters the document state. -/
def allocGeom (m : Model) (g : Geom) : Model × Nat :=
  ({ m with
      geoms := fun x => if x = m.nextGeom then g else m.geoms x,
      nextGeom := m.nextGeom + 1 },
   m.nextGeom)

/-- Modelled from the spec: `GraphDataModel.filterCells` (not among the
reviewed sources) returns a new ordered sequence containing only the cells
satisfying the predicate. -/
def filterCells (cells : List Nat) (p : Nat → Bool) : List Nat :=
  cells.filter p

/-! ## ChildChange (translated from the reviewed source) -/

/-- The state of a `ChildChange` record: model-independent fields of the
class (the model reference is passed explicitly to `executeF`). -/
structure ChildChange where
  parent : Option Nat
  child : Nat
  previous : Option Nat
  index : Nat
  previousIndex : Nat
deriving DecidableEq, Repr

/-- The `ChildChange` constructor: both current and previous fields start
from the requested parent and index. -/
def ChildChange.make (parent : Option Nat) (child : Nat) (index : Nat) : ChildChange :=
  ⟨parent, child, parent, index, index⟩

/-- The part of `ChildChange.connect` before the recursion over children:
read both terminals, run `terminalForCellChanged` on each non-null one
(with the terminal itself when connecting, with null when disconnecting),
then write both terminal fields back. -/
def connectTerminals (m : Model) (cell : Nat) (isConnect : Bool) : Model :=
  let source := (m.cells cell).source
  let target := (m.cells cell).target
  let m1 := match source with
    | some _ => (terminalForCellChanged m cell (if isConnect then source else none) true).1
    | none => m
  let m2 := match target with
    | some _ => (terminalForCellChanged m1 cell (if isConnect then target else none) false).1
    | none => m1
  let m3 := setTerminalF m2 cell source true
  setTerminalF m3 cell target false

/-- `ChildChange.connect`: the terminal pass on the cell followed by the
recursion over the children in index order, reading each child from the
current state.  The recursion of the source follows the child structure of
the heap, so it is given explicit fuel here; every theorem that needs the
whole subtree assumes the fuel covers its depth. -/
def connectF : Nat → Model → Nat → Bool → Model
  | 0, m, _, _ => m
  | n + 1, m, cell, isConnect =>
      let m4 := connectTerminals m cell isConnect
      (List.range ((m4.cells cell).children).length).foldl
        (fun st i => connectF n st (((st.cells cell).children).getD i 0) isConnect) m4

/-- The index of the cell inside its current parent, as `execute` computes
it (`tmp ? tmp.getIndex(this.child) : 0`). -/
def execIdx (m : Model) (c : Nat) : Nat :=
  match (m.cells c).parent with
  | some p => getIndexJS ((m.cells p).children) c
  | none => 0

/-- `ChildChange.execute`: capture the current parent and index, run the
disconnect pass when the stored previous parent is null, move the cell via
`parentForCellChanged`, run the reconnect pass when the stored previous
parent is non-null, and swap the stored previous state. -/
def ChildChange.executeF (fuel : Nat) (m : Model) (r : ChildChange) :
    Model × ChildChange :=
  let tmp2 := execIdx m r.child
  let m1 := match r.previous with
    | none => connectF fuel m r.child false
    | some _ => m
  let pr := parentForCellChanged m1 r.child r.previous r.previousIndex
  let m3 := match r.previous with
    | some _ => connectF fuel pr.1 r.child true
    | none => pr.1
  (m3, ⟨r.previous, r.child, pr.2, r.previousIndex, tmp2⟩)

/-- The sequence of cells the cascade of `connect` visits: the cell itself
followed by each child's subtree in index order. -/
def traverseOrder : Nat → Model → Nat → List Nat
  | 0, _, _ => []
  | n + 1, m, c => c :: (((m.cells c).children).map (traverseOrder n m)).flatten

/-- Fuel adequacy: the given fuel strictly dominates the child depth below
the cell. -/
def depthOk : Nat → Model → Nat → Bool
  | 0, _, _ => false
  | n + 1, m, c => ((m.cells c).children).all (depthOk n m)

/-- Descendant relation of the child structure (the cell itself included). -/
inductive Desc (m : Model) : Nat → Nat → Prop
  | refl (c : Nat) : Desc m c c
  | child {c k x : Nat} : k ∈ (m.cells c).children → Desc m k x → Desc m c x

/-! ## Folding mixin (translated from the reviewed source) -/

/-- The resolved style attributes the reviewed mixins read. -/
structure CellStyleRec where
  editable : Option Bool
  foldable : Option Bool
deriving DecidableEq, Repr

/-- The collaborators `FoldingMixin` picks from the host graph whose
sources are outside the review: style resolution, parent extension,
child constraining and the alternate-bounds computation (the latter is
floating-point geometry the core does not compute itself). -/
structure FoldCollab where
  getCurrentCellStyle : Model → Nat → CellStyleRec
  isExtendParent : Model → Nat → Bool
  extendParent : Model × List Chg → Nat → Model × List Chg
  constrainChild : Model × List Chg → Nat → Model × List Chg
  updAltBounds : Model → Nat → Geom → Bool → Geom

/-- `FoldingMixin.isCellFoldable`: a cell with children whose resolved
style does not set `foldable` to false. -/
def isCellFoldable (co : FoldCollab) (m : Model) (cell : Nat) (_collapse : Bool) : Bool :=
  decide (0 < ((m.cells cell).children).length)
    && (((co.getCurrentCellStyle m cell).foldable).getD true)

/-- `FoldingMixin.getFoldableCells`: filter the given cells through the
document model's `filterCells` with the foldability predicate. -/
def getFoldableCells (co : FoldCollab) (m : Model) (cells : List Nat) (collapse : Bool) :
    List Nat :=
  filterCells cells (fun cell => isCellFoldable co m cell collapse)

/-- `FoldingMixin.swapBounds`: when the cell has a geometry, clone it, let
the collaborator update the alternate bounds of the clone, swap the clone's
bounds and hand the clone to the document model's `setGeometry`. -/
def swapBounds (co : FoldCollab) (m : Model) (recs : List Chg) (cell : Nat)
    (willCollapse : Bool) : Model × List Chg :=
  match (m.cells cell).geometry with
  | none => (m, recs)
  | some gid =>
      let g := m.geoms gid
      let g1 := co.updAltBounds m cell g willCollapse
      let g2 := Geom.swap g1
      let al := allocGeom m g2
      setGeometryM al.1 recs cell (some al.2)

/-- The body of the loop of `FoldingMixin.cellsFolded` for one cell; the
recursive call for `recurse` is passed in by `cellsFolded`. -/
def foldStep (co : FoldCollab)
    (recurseCall : Model → List Chg → List Nat → Model × List Chg)
    (collapse recurse chk : Bool) (mr : Model × List Chg) (cell : Nat) :
    Model × List Chg :=
  if (!chk || isCellFoldable co mr.1 cell collapse)
      && (collapse != (mr.1.cells cell).collapsed) then
    let mr1 := setCollapsedM mr.1 mr.2 cell collapse
    let mr2 := swapBounds co mr1.1 mr1.2 cell collapse
    let mr3 := if co.isExtendParent mr2.1 cell then co.extendParent mr2 cell else mr2
    let mr4 := if recurse then recurseCall mr3.1 mr3.2 ((mr3.1.cells cell).children)
               else mr3
    co.constrainChild mr4 cell
  else mr

/-- `FoldingMixin.cellsFolded`: iterate the step over the given cells; the
recursive descent over children carries explicit fuel. -/
def cellsFolded (co : FoldCollab) :
    Nat → Model → List Chg → List Nat → Bool → Bool → Bool → Model × List Chg
  | 0, m, recs, _, _, _, _ => (m, recs)
  | n + 1, m, recs, cells, collapse, recurse, chk =>
      cells.foldl
        (foldStep co (fun m2 r2 cs => cellsFolded co n m2 r2 cs collapse recurse false)
          collapse recurse chk)
        (m, recs)

/-! ## Editing mixin (translated from the reviewed source) -/

/-- The collaborators `EditingMixin.isCellEditable` reads from the host. -/
structure EditCollab where
  getCurrentCellStyle : Nat → CellStyleRec
  isCellLocked : Nat → Bool

/-- `EditingMixin.isCellsEditable`: returns the `cellsEditable` flag. -/
def isCellsEditableF (cellsEditable : Bool) : Bool := cellsEditable

/-- `EditingMixin.isCellEditable`: editable cells flag, not locked, and the
resolved style's `editable` key coerced with `|| false`. -/
def isCellEditable (co : EditCollab) (cellsEditable : Bool) (cell : Nat) : Bool :=
  isCellsEditableF cellsEditable && !(co.isCellLocked cell)
    && (((co.getCurrentCellStyle cell).editable).getD false)

/-! ## Pointwise characterizations of the modelled operations -/

theorem foldl_inv {α : Type} (P : Model → Prop) (g : Model → α → Model)
    (hg : ∀ s a, P s → P (g s a)) :
    ∀ (l : List α) (s : Model), P s → P (l.foldl g s) := by
  intro l
  induction l with
  | nil => intro s hs; simpa using hs
  | cons a t ih => intro s hs; exact ih (g s a) (hg s a hs)

theorem stf_cells (m : Model) (c : Nat) (t : Option Nat) (b : Bool) (x : Nat) :
    (setTerminalF m c t b).cells x =
      if x = c then
        (if b then { m.cells c with source := t } else { m.cells c with target := t })
      else m.cells x := rfl

theorem updEdgesErase_cells (m : Model) (p e x : Nat) :
    (updEdgesErase m p e).cells x =
      if x = p then { m.cells p with edges := eraseFirst (m.cells p).edges e }
      else m.cells x := rfl

theorem updEdgesAdd_cells (m : Model) (p e x : Nat) :
    (updEdgesAdd m p e).cells x =
      if e ∈ (m.cells p).edges then m.cells x
      else if x = p then { m.cells p with edges := (m.cells p).edges ++ [e] }
      else m.cells x := by
  unfold updEdgesAdd updCell
  split <;> rfl

theorem tfcc_pres (m : Model) (e : Nat) (t : Option Nat) (b : Bool) (x : Nat) :
    (((terminalForCellChanged m e t b).1).cells x).parent = (m.cells x).parent
    ∧ (((terminalForCellChanged m e t b).1).cells x).children = (m.cells x).children
    ∧ (((terminalForCellChanged m e t b).1).cells x).collapsed = (m.cells x).collapsed
    ∧ (((terminalForCellChanged m e t b).1).cells x).geometry = (m.cells x).geometry
    ∧ (x ≠ e →
        (((terminalForCellChanged m e t b).1).cells x).source = (m.cells x).source
        ∧ (((terminalForCellChanged m e t b).1).cells x).target = (m.cells x).target) := by
  rcases t with _ | tc <;> rcases hp : getTerminalF (m.cells e) b with _ | p <;>
    simp only [terminalForCellChanged, hp] <;>
    cases b <;>
    simp_all [stf_cells, updEdgesErase_cells, updEdgesAdd_cells, getTerminalF] <;>
    split_ifs <;>
    simp_all [stf_cells, updEdgesErase_cells, updEdgesAdd_cells] <;>
    split_ifs <;>
    simp_all [stf_cells, updEdgesErase_cells, updEdgesAdd_cells]

/-- Preservation relation: the second state agrees with the first on
parent, children, collapsed and geometry everywhere, and on the terminal
fields of every cell other than the given edge. -/
def TPres (e : Nat) (m m' : Model) : Prop :=
  ∀ y, (m'.cells y).parent = (m.cells y).parent
    ∧ (m'.cells y).children = (m.cells y).children
    ∧ (m'.cells y).collapsed = (m.cells y).collapsed
    ∧ (m'.cells y).geometry = (m.cells y).geometry
    ∧ (y ≠ e → (m'.cells y).source = (m.cells y).source
             ∧ (m'.cells y).target = (m.cells y).target)

theorem TPres_refl (e : Nat) (m : Model) : TPres e m m := by
  intro y; simp

theorem TPres_trans {e : Nat} {m m' m'' : Model}
    (h1 : TPres e m m') (h2 : TPres e m' m'') : TPres e m m'' := by
  intro y
  obtain ⟨a1, b1, c1, d1, e1⟩ := h1 y
  obtain ⟨a2, b2, c2, d2, e2⟩ := h2 y
  refine ⟨a2.trans a1, b2.trans b1, c2.trans c1, d2.trans d1, fun hy => ?_⟩
  obtain ⟨s1, t1⟩ := e1 hy
  obtain ⟨s2, t2⟩ := e2 hy
  exact ⟨s2.trans s1, t2.trans t1⟩

theorem tfcc_TPres (m : Model) (e : Nat) (t : Option Nat) (b : Bool) :
    TPres e m (terminalForCellChanged m e t b).1 := by
  intro y
  obtain ⟨a, b2, c2, d2, e2⟩ := tfcc_pres m e t b y
  exact ⟨a, b2, c2, d2, e2⟩

theorem stf_restore (m M2 : Model) (c x : Nat) (s0 t0 : Option Nat)
    (h2 : TPres c m M2) (hs : (m.cells c).source = s0) (ht : (m.cells c).target = t0) :
    sansE ((setTerminalF (setTerminalF M2 c s0 true) c t0 false).cells x)
      = sansE (m.cells x) := by
  by_cases hx : x = c
  · subst hx
    obtain ⟨hp, hch, hcol, hgeo, _⟩ := h2 x
    ext <;> simp [sansE, stf_cells, hp, hch, hcol, hgeo, hs, ht]
  · obtain ⟨hp, hch, hcol, hgeo, hterm⟩ := h2 x
    obtain ⟨hsrc, htgt⟩ := hterm hx
    ext <;> simp [sansE, stf_cells, hx, hp, hch, hcol, hgeo, hsrc, htgt]

theorem ct_sansE (m : Model) (c : Nat) (b : Bool) (x : Nat) :
    sansE ((connectTerminals m c b).cells x) = sansE (m.cells x) := by
  rcases hs : (m.cells c).source with _ | s0 <;> rcases ht : (m.cells c).target with _ | t0 <;>
    simp only [connectTerminals, hs, ht]
  · exact stf_restore m m c x none none (TPres_refl c m) hs ht
  · exact stf_restore m _ c x none (some t0) (tfcc_TPres m c _ false) hs ht
  · exact stf_restore m _ c x (some s0) none (tfcc_TPres m c _ true) hs ht
  · exact stf_restore m _ c x (some s0) (some t0)
      (TPres_trans (tfcc_TPres m c _ true) (tfcc_TPres _ c _ false)) hs ht

theorem cf_sansE (n : Nat) : ∀ (m : Model) (c : Nat) (b : Bool) (x : Nat),
    sansE ((connectF n m c b).cells x) = sansE (m.cells x) := by
  induction n with
  | zero => intro m c b x; rfl
  | succ k ih =>
    intro m c b x
    simp only [connectF]
    have hstep : ∀ (s : Model) (i : Nat),
        (∀ y, sansE (s.cells y) = sansE (m.cells y)) →
        (∀ y, sansE ((connectF k s (((s.cells c).children).getD i 0) b).cells y)
          = sansE (m.cells y)) := by
      intro s i hs y
      exact (ih s _ b y).trans (hs y)
    have hbase : ∀ y, sansE ((connectTerminals m c b).cells y) = sansE (m.cells y) :=
      fun y => ct_sansE m c b y
    exact foldl_inv (fun s => ∀ y, sansE (s.cells y) = sansE (m.cells y)) _ hstep _ _ hbase x

theorem cf_parent (n : Nat) (m : Model) (c : Nat) (b : Bool) (x : Nat) :
    ((connectF n m c b).cells x).parent = (m.cells x).parent :=
  sansE_parent (cf_sansE n m c b x)

theorem cf_children (n : Nat) (m : Model) (c : Nat) (b : Bool) (x : Nat) :
    ((connectF n m c b).cells x).children = (m.cells x).children :=
  sansE_children (cf_sansE n m c b x)

theorem cf_source (n : Nat) (m : Model) (c : Nat) (b : Bool) (x : Nat) :
    ((connectF n m c b).cells x).source = (m.cells x).source :=
  sansE_source (cf_sansE n m c b x)

theorem cf_target (n : Nat) (m : Model) (c : Nat) (b : Bool) (x : Nat) :
    ((connectF n m c b).cells x).target = (m.cells x).target :=
  sansE_target (cf_sansE n m c b x)

/-- The child sequence of a cell once the moved cell has been detached from
its previous parent: the erasure applies exactly at the previous parent. -/
def pccE (m : Model) (c x : Nat) : List Nat :=
  if (m.cells c).parent = some x then eraseFirst ((m.cells x).children) c
  else (m.cells x).children

theorem pcc_snd (m : Model) (c : Nat) (par : Option Nat) (idx : Nat) :
    (parentForCellChanged m c par idx).2 = (m.cells c).parent := by
  simp only [parentForCellChanged]

theorem pcc_parent (m : Model) (c : Nat) (par : Option Nat) (idx : Nat) (x : Nat) :
    ((parentForCellChanged m c par idx).1.cells x).parent =
      if x = c then par else (m.cells x).parent := by
  rcases hp : (m.cells c).parent with _ | p <;> rcases par with _ | p2 <;>
    simp only [parentForCellChanged, hp] <;>
    by_cases hx : x = c <;>
    simp_all [updCell_cells] <;>
    split_ifs <;>
    simp_all

theorem pcc_children (m : Model) (c : Nat) (par : Option Nat) (idx : Nat) (x : Nat) :
    ((parentForCellChanged m c par idx).1.cells x).children =
      if par = some x then insertAtJS idx c (pccE m c x) else pccE m c x := by
  rcases hp : (m.cells c).parent with _ | p <;> rcases par with _ | p2 <;>
    simp only [parentForCellChanged, hp, pccE] <;>
    simp only [updCell_cells, hp] <;>
    split_ifs <;>
    simp_all

theorem pcc_source (m : Model) (c : Nat) (par : Option Nat) (idx : Nat) (x : Nat) :
    ((parentForCellChanged m c par idx).1.cells x).source = (m.cells x).source := by
  rcases hp : (m.cells c).parent with _ | p <;> rcases par with _ | p2 <;>
    simp only [parentForCellChanged, hp] <;>
    simp_all [updCell_cells] <;>
    split_ifs <;>
    simp_all

theorem pcc_target (m : Model) (c : Nat) (par : Option Nat) (idx : Nat) (x : Nat) :
    ((parentForCellChanged m c par idx).1.cells x).target = (m.cells x).target := by
  rcases hp : (m.cells c).parent with _ | p <;> rcases par with _ | p2 <;>
    simp only [parentForCellChanged, hp] <;>
    simp_all [updCell_cells] <;>
    split_ifs <;>
    simp_all

theorem pcc_edges (m : Model) (c : Nat) (par : Option Nat) (idx : Nat) (x : Nat) :
    ((parentForCellChanged m c par idx).1.cells x).edges = (m.cells x).edges := by
  rcases hp : (m.cells c).parent with _ | p <;> rcases par with _ | p2 <;>
    simp only [parentForCellChanged, hp] <;>
    simp_all [updCell_cells] <;>
    split_ifs <;>
    simp_all

theorem pccE_congr {m m' : Model} (c x : Nat)
    (hp : (m'.cells c).parent = (m.cells c).parent)
    (hch : (m'.cells x).children = (m.cells x).children) :
    pccE m' c x = pccE m c x := by
  simp [pccE, hp, hch]

theorem exec_snd (f : Nat) (m : Model) (r : ChildChange) :
    (ChildChange.executeF f m r).2 =
      ⟨r.previous, r.child, (m.cells r.child).parent, r.previousIndex,
        execIdx m r.child⟩ := by
  rcases hr : r.previous with _ | p <;>
    simp only [ChildChange.executeF, hr, pcc_snd] <;>
    simp [cf_parent]

theorem exec_parent (f : Nat) (m : Model) (r : ChildChange) (x : Nat) :
    ((ChildChange.executeF f m r).1.cells x).parent =
      if x = r.child then r.previous else (m.cells x).parent := by
  rcases hr : r.previous with _ | p
  · simp only [ChildChange.executeF, hr]
    rw [pcc_parent]
    by_cases hx : x = r.child <;> simp [hx, cf_parent]
  · simp only [ChildChange.executeF, hr]
    rw [cf_parent, pcc_parent]

theorem exec_children (f : Nat) (m : Model) (r : ChildChange) (x : Nat) :
    ((ChildChange.executeF f m r).1.cells x).children =
      if r.previous = some x then
        insertAtJS r.previousIndex r.child (pccE m r.child x)
      else pccE m r.child x := by
  rcases hr : r.previous with _ | p
  · simp only [ChildChange.executeF, hr]
    rw [pcc_children]
    have h1 : pccE (connectF f m r.child false) r.child x = pccE m r.child x :=
      pccE_congr _ _ (cf_parent f m r.child false r.child)
        (cf_children f m r.child false x)
    simp [h1]
  · simp only [ChildChange.executeF, hr]
    rw [cf_children, pcc_children]

theorem exec_source (f : Nat) (m : Model) (r : ChildChange) (x : Nat) :
    ((ChildChange.executeF f m r).1.cells x).source = (m.cells x).source := by
  rcases hr : r.previous with _ | p <;>
    simp only [ChildChange.executeF, hr] <;>
    simp [cf_source, pcc_source]

theorem exec_target (f : Nat) (m : Model) (r : ChildChange) (x : Nat) :
    ((ChildChange.executeF f m r).1.cells x).target = (m.cells x).target := by
  rcases hr : r.previous with _ | p <;>
    simp only [ChildChange.executeF, hr] <;>
    simp [cf_target, pcc_target]

theorem exec_exec_restore (f g : Nat) (m : Model) (r : ChildChange)
    (hn : ∀ x, ((m.cells x).children).Nodup)
    (hpc : ∀ x p, (m.cells x).parent = some p → x ∈ ((m.cells p).children))
    (hcp : ∀ p x, x ∈ ((m.cells p).children) → (m.cells x).parent = some p) :
    ∀ x,
      (((ChildChange.executeF g (ChildChange.executeF f m r).1
          (ChildChange.executeF f m r).2).1).cells x).parent = (m.cells x).parent
      ∧ (((ChildChange.executeF g (ChildChange.executeF f m r).1
          (ChildChange.executeF f m r).2).1).cells x).children = (m.cells x).children
      ∧ (((ChildChange.executeF g (ChildChange.executeF f m r).1
          (ChildChange.executeF f m r).2).1).cells x).source = (m.cells x).source
      ∧ (((ChildChange.executeF g (ChildChange.executeF f m r).1
          (ChildChange.executeF f m r).2).1).cells x).target = (m.cells x).target := by
  intro x
  have hr1 := exec_snd f m r
  have hm1parent : ∀ y, ((ChildChange.executeF f m r).1.cells y).parent =
      if y = r.child then r.previous else (m.cells y).parent := exec_parent f m r
  have hm1children : ∀ y, ((ChildChange.executeF f m r).1.cells y).children =
      if r.previous = some y then
        insertAtJS r.previousIndex r.child (pccE m r.child y)
      else pccE m r.child y := exec_children f m r
  refine ⟨?_, ?_, ?_, ?_⟩
  · rw [exec_parent, hr1]
    by_cases hx : x = r.child <;> simp [hx, hm1parent]
  · rw [exec_children, hr1]
    dsimp only
    -- the second pass moves the cell to the captured previous parent at the
    -- captured previous index
    have hm1pc : ((ChildChange.executeF f m r).1.cells r.child).parent = r.previous := by
      simp [hm1parent]
    have hpccE1 : pccE (ChildChange.executeF f m r).1 r.child x =
        if r.previous = some x then
          eraseFirst ((ChildChange.executeF f m r).1.cells x).children r.child
        else ((ChildChange.executeF f m r).1.cells x).children := by
      simp [pccE, hm1pc]
    by_cases hqx : (m.cells r.child).parent = some x <;>
      by_cases hpx : r.previous = some x
    · -- the cell moves within the same parent
      have hmem : r.child ∈ (m.cells x).children := hpc r.child x hqx
      have hj : execIdx m r.child = getIndexJS ((m.cells x).children) r.child := by
        simp [execIdx, hqx]
      have hE0 : pccE m r.child x = eraseFirst ((m.cells x).children) r.child := by
        simp [pccE, hqx]
      rw [if_pos hqx, hpccE1, if_pos hpx, hm1children x, if_pos hpx, hE0]
      rw [eraseFirst_insertAtJS _ (not_mem_eraseFirst_self (hn x))]
      rw [hj]
      exact insertAtJS_getIndexJS_eraseFirst hmem
    · have hmem : r.child ∈ (m.cells x).children := hpc r.child x hqx
      have hj : execIdx m r.child = getIndexJS ((m.cells x).children) r.child := by
        simp [execIdx, hqx]
      have hE0 : pccE m r.child x = eraseFirst ((m.cells x).children) r.child := by
        simp [pccE, hqx]
      rw [if_pos hqx, hpccE1, if_neg hpx, hm1children x, if_neg hpx, hE0, hj]
      exact insertAtJS_getIndexJS_eraseFirst hmem
    · have hnotmem : r.child ∉ (m.cells x).children := by
        intro hmem
        exact hqx (hcp x r.child hmem)
      have hE0 : pccE m r.child x = (m.cells x).children := by
        simp [pccE, hqx]
      rw [if_neg hqx, hpccE1, if_pos hpx, hm1children x, if_pos hpx, hE0]
      exact eraseFirst_insertAtJS _ hnotmem
    · have hE0 : pccE m r.child x = (m.cells x).children := by
        simp [pccE, hqx]
      rw [if_neg hqx, hpccE1, if_neg hpx, hm1children x, if_neg hpx, hE0]
  · rw [exec_source, exec_source]
  · rw [exec_target, exec_target]

theorem getD_append_cons : ∀ (l1 : List Nat) (a : Nat) (l2 : List Nat),
    (l1 ++ a :: l2).getD l1.length 0 = a
  | [], _, _ => rfl
  | _ :: t, a, l2 => getD_append_cons t a l2

theorem traverseOrder_congr (n : Nat) : ∀ (m m' : Model) (c : Nat),
    (∀ y, (m'.cells y).children = (m.cells y).children) →
    traverseOrder n m' c = traverseOrder n m c := by
  induction n with
  | zero => intro m m' c _; rfl
  | succ k ih =>
    intro m m' c h
    simp only [traverseOrder, h c]
    exact congrArg (fun L => c :: L)
      (congrArg List.flatten (List.map_congr_left (fun a _ => ih m m' a h)))

theorem fold_range_connect (n : Nat) (b : Bool) (c : Nat) :
    ∀ (l2 l1 : List Nat) (st : Model), (st.cells c).children = l1 ++ l2 →
      (List.range' l1.length l2.length).foldl
        (fun s i => connectF n s (((s.cells c).children).getD i 0) b) st
      = l2.foldl (fun s k => connectF n s k b) st := by
  intro l2
  induction l2 with
  | nil => intro l1 st _; rfl
  | cons a t ih =>
    intro l1 st h
    simp only [List.length_cons]
    rw [List.range'_succ]
    simp only [List.foldl_cons]
    have hgd : ((st.cells c).children).getD l1.length 0 = a := by
      rw [h]; exact getD_append_cons l1 a t
    rw [hgd]
    have h2 : ((connectF n st a b).cells c).children = (l1 ++ [a]) ++ t := by
      rw [cf_children, h]; simp
    have h3 := ih (l1 ++ [a]) (connectF n st a b) h2
    simpa using h3

theorem connectF_decomp (n : Nat) : ∀ (m : Model) (c : Nat) (b : Bool),
    connectF n m c b
      = (traverseOrder n m c).foldl (fun st k => connectTerminals st k b) m := by
  induction n with
  | zero => intro m c b; rfl
  | succ k ih =>
    intro m c b
    have hch4 : ∀ y, ((connectTerminals m c b).cells y).children = (m.cells y).children :=
      fun y => sansE_children (ct_sansE m c b y)
    have h1 := fold_range_connect k b c (((connectTerminals m c b).cells c).children)
      [] (connectTerminals m c b) (by simp)
    have h0 : connectF (k + 1) m c b
        = (((connectTerminals m c b).cells c).children).foldl
            (fun s k2 => connectF k s k2 b) (connectTerminals m c b) := by
      simp only [connectF]
      rw [List.range_eq_range']
      exact h1
    have inner : ∀ (l : List Nat) (s : Model),
        (∀ y, (s.cells y).children = (m.cells y).children) →
        l.foldl (fun s2 k2 => connectF k s2 k2 b) s
          = ((l.map (traverseOrder k m)).flatten).foldl
              (fun st k2 => connectTerminals st k2 b) s := by
      intro l
      induction l with
      | nil => intro s _; rfl
      | cons a t ih2 =>
        intro s hs
        have ha : connectF k s a b
            = (traverseOrder k m a).foldl (fun st k2 => connectTerminals st k2 b) s := by
          rw [ih s a b, traverseOrder_congr k m s a hs]
        simp only [List.foldl_cons, List.map_cons, List.flatten_cons, List.foldl_append]
        rw [ih2 (connectF k s a b) (fun y => (cf_children k s a b y).trans (hs y)), ha]
    rw [h0, hch4 c, inner ((m.cells c).children) (connectTerminals m c b) hch4]
    simp only [traverseOrder, List.foldl_cons]

theorem desc_mem_traverseOrder {m : Model} {c x : Nat} (h : Desc m c x) :
    ∀ f, depthOk f m c = true → x ∈ traverseOrder f m c := by
  induction h with
  | refl c =>
    intro f hf
    cases f with
    | zero => simp [depthOk] at hf
    | succ n => simp [traverseOrder]
  | child hk _ ih =>
    intro f hf
    cases f with
    | zero => simp [depthOk] at hf
    | succ n =>
      have hdk := (List.all_eq_true.mp (by simpa [depthOk] using hf)) _ hk
      exact List.mem_cons_of_mem _
        (List.mem_flatten.mpr ⟨_, List.mem_map_of_mem _ hk, ih n hdk⟩)

theorem stf_edges (m : Model) (c : Nat) (t : Option Nat) (b : Bool) (x : Nat) :
    ((setTerminalF m c t b).cells x).edges = (m.cells x).edges := by
  by_cases hx : x = c
  · subst hx; cases b <;> simp [stf_cells]
  · simp [stf_cells, hx]

theorem stf_true_target (m : Model) (c : Nat) (t : Option Nat) (x : Nat) :
    ((setTerminalF m c t true).cells x).target = (m.cells x).target := by
  by_cases hx : x = c
  · subst hx; simp [stf_cells]
  · simp [stf_cells, hx]

theorem stf_false_source (m : Model) (c : Nat) (t : Option Nat) (x : Nat) :
    ((setTerminalF m c t false).cells x).source = (m.cells x).source := by
  by_cases hx : x = c
  · subst hx; simp [stf_cells]
  · simp [stf_cells, hx]

theorem stf_source_self (m : Model) (c : Nat) (t : Option Nat) :
    ((setTerminalF m c t true).cells c).source = t := by
  simp [stf_cells]

theorem updEdgesErase_edges (m : Model) (p e x : Nat) :
    ((updEdgesErase m p e).cells x).edges =
      if x = p then eraseFirst ((m.cells p).edges) e else (m.cells x).edges := by
  by_cases hx : x = p
  · subst hx; simp [updEdgesErase_cells]
  · simp [updEdgesErase_cells, hx]

theorem updEdgesErase_source (m : Model) (p e x : Nat) :
    ((updEdgesErase m p e).cells x).source = (m.cells x).source := by
  by_cases hx : x = p
  · subst hx; simp [updEdgesErase_cells]
  · simp [updEdgesErase_cells, hx]

theorem updEdgesErase_target (m : Model) (p e x : Nat) :
    ((updEdgesErase m p e).cells x).target = (m.cells x).target := by
  by_cases hx : x = p
  · subst hx; simp [updEdgesErase_cells]
  · simp [updEdgesErase_cells, hx]

theorem updEdgesAdd_edges (m : Model) (p e x : Nat) :
    ((updEdgesAdd m p e).cells x).edges =
      if e ∈ (m.cells p).edges then (m.cells x).edges
      else if x = p then (m.cells p).edges ++ [e] else (m.cells x).edges := by
  rw [updEdgesAdd_cells]
  by_cases hm : e ∈ (m.cells p).edges
  · simp [hm]
  · by_cases hx : x = p
    · subst hx; simp [hm]
    · simp [hm, hx]

theorem tfcc_none_edges_subset (m : Model) (e : Nat) (b : Bool) (z w : Nat)
    (h : w ∈ (((terminalForCellChanged m e none b).1).cells z).edges) :
    w ∈ (m.cells z).edges := by
  rcases hp : getTerminalF (m.cells e) b with _ | p
  · simpa [terminalForCellChanged, hp] using h
  · simp only [terminalForCellChanged, hp] at h
    rw [stf_edges] at h
    by_cases hc : getTerminalF (m.cells e) (!b) ≠ some p
    · rw [if_pos hc, updEdgesErase_edges] at h
      by_cases hz : z = p
      · rw [if_pos hz] at h
        exact hz ▸ mem_eraseFirst_imp h
      · rwa [if_neg hz] at h
    · rwa [if_neg hc] at h

theorem tfcc_none_nodup (m : Model) (e : Nat) (b : Bool)
    (hE : ∀ z, ((m.cells z).edges).Nodup) (z : Nat) :
    ((((terminalForCellChanged m e none b).1).cells z).edges).Nodup := by
  rcases hp : getTerminalF (m.cells e) b with _ | p
  · simpa [terminalForCellChanged, hp] using hE z
  · simp only [terminalForCellChanged, hp]
    rw [stf_edges]
    by_cases hc : getTerminalF (m.cells e) (!b) ≠ some p
    · rw [if_pos hc, updEdgesErase_edges]
      split_ifs
      · exact nodup_eraseFirst _ (hE p)
      · exact hE z
    · rw [if_neg hc]; exact hE z

theorem tfcc_none_sever (m : Model) (e : Nat) (b : Bool) (p : Nat)
    (hprev : getTerminalF (m.cells e) b = some p)
    (hother : getTerminalF (m.cells e) (!b) ≠ some p)
    (hnd : ((m.cells p).edges).Nodup) :
    e ∉ (((terminalForCellChanged m e none b).1).cells p).edges := by
  simp only [terminalForCellChanged, hprev, if_pos hother]
  rw [stf_edges, updEdgesErase_edges, if_pos rfl]
  exact not_mem_eraseFirst_self hnd

theorem tfcc_none_true_target (m : Model) (e : Nat) (x : Nat) :
    (((terminalForCellChanged m e none true).1).cells x).target = (m.cells x).target := by
  rcases hp : getTerminalF (m.cells e) true with _ | p
  · simp [terminalForCellChanged, hp]
  · simp only [terminalForCellChanged, hp]
    rw [stf_true_target]
    split_ifs
    · rw [updEdgesErase_target]
    · rfl

theorem tfcc_none_source_self (m : Model) (e p : Nat)
    (hp : getTerminalF (m.cells e) true = some p) :
    (((terminalForCellChanged m e none true).1).cells e).source = none := by
  simp only [terminalForCellChanged, hp]
  split_ifs <;> simp [stf_cells]

/-- The disconnect pass on one cell removes the cell from the incident-edge
views of both its terminals. -/
theorem ct_false_sever (m : Model) (y : Nat)
    (hE : ∀ z, ((m.cells z).edges).Nodup) :
    (∀ S, (m.cells y).source = some S →
      y ∉ ((connectTerminals m y false).cells S).edges)
    ∧ (∀ T, (m.cells y).target = some T →
      y ∉ ((connectTerminals m y false).cells T).edges) := by
  rcases hs : (m.cells y).source with _ | s0 <;> rcases ht : (m.cells y).target with _ | t0 <;>
    simp only [connectTerminals, hs, ht]
  · constructor
    · intro S hS
      exact absurd hS (by simp)
    · intro T hT
      exact absurd hT (by simp)
  · -- source null, target present: only the target call runs
    constructor
    · intro S hS
      exact absurd hS (by simp)
    · intro T hT
      obtain rfl : t0 = T := Option.some.inj hT
      rw [stf_edges, stf_edges]
      exact tfcc_none_sever m y false t0 (by simp [getTerminalF, ht])
        (by simp [getTerminalF, hs]) (hE t0)
  · -- source present, target null: only the source call runs
    constructor
    · intro S hS
      obtain rfl : s0 = S := Option.some.inj hS
      rw [stf_edges, stf_edges]
      exact tfcc_none_sever m y true s0 (by simp [getTerminalF, hs])
        (by simp [getTerminalF, ht]) (hE s0)
    · intro T hT
      exact absurd hT (by simp)
  · -- both terminals present
    have hprev2 : getTerminalF (((terminalForCellChanged m y none true).1).cells y) false
        = some t0 := by
      simpa [getTerminalF] using (tfcc_none_true_target m y y).trans ht
    have hnd1 := fun z => tfcc_none_nodup m y true hE z
    have hother2 : getTerminalF (((terminalForCellChanged m y none true).1).cells y)
        (!false) ≠ some t0 := by
      simp only [Bool.not_false, getTerminalF, if_pos rfl]
      rw [tfcc_none_source_self m y s0 (by simpa [getTerminalF] using hs)]
      simp
    have hsever2 := tfcc_none_sever ((terminalForCellChanged m y none true).1) y false t0
      hprev2 hother2 (hnd1 t0)
    by_cases hts : t0 = s0
    · -- a self-referential pair: the source call skips the erase, the
      -- target call removes the single entry
      subst hts
      constructor
      · intro S hS
        obtain rfl : t0 = S := Option.some.inj hS
        rw [stf_edges, stf_edges]
        exact hsever2
      · intro T hT
        obtain rfl : t0 = T := Option.some.inj hT
        rw [stf_edges, stf_edges]
        exact hsever2
    · -- distinct terminals: each call erases from its own terminal
      have hother1 : getTerminalF (m.cells y) (!true) ≠ some s0 := by
        simp only [Bool.not_true, getTerminalF]
        simp [ht, hts]
      have hsever1 := tfcc_none_sever m y true s0 (by simp [getTerminalF, hs])
        hother1 (hE s0)
      constructor
      · intro S hS
        obtain rfl : s0 = S := Option.some.inj hS
        rw [stf_edges, stf_edges]
        intro hmem
        exact hsever1 (tfcc_none_edges_subset _ y false s0 y hmem)
      · intro T hT
        obtain rfl : t0 = T := Option.some.inj hT
        rw [stf_edges, stf_edges]
        exact hsever2

theorem ct_false_edges_subset (m : Model) (y z w : Nat)
    (h : w ∈ ((connectTerminals m y false).cells z).edges) : w ∈ (m.cells z).edges := by
  rcases hs : (m.cells y).source with _ | s0 <;> rcases ht : (m.cells y).target with _ | t0 <;>
    simp only [connectTerminals, hs, ht] at h <;>
    rw [stf_edges, stf_edges] at h
  · exact h
  · exact tfcc_none_edges_subset _ y false z w h
  · exact tfcc_none_edges_subset _ y true z w h
  · exact tfcc_none_edges_subset _ y true z w
      (tfcc_none_edges_subset _ y false z w h)

theorem ct_false_nodupE (m : Model) (y : Nat)
    (hE : ∀ z, ((m.cells z).edges).Nodup) (z : Nat) :
    (((connectTerminals m y false).cells z).edges).Nodup := by
  rcases hs : (m.cells y).source with _ | s0 <;> rcases ht : (m.cells y).target with _ | t0 <;>
    simp only [connectTerminals, hs, ht] <;>
    rw [stf_edges, stf_edges]
  · exact hE z
  · exact tfcc_none_nodup m y false hE z
  · exact tfcc_none_nodup m y true hE z
  · exact tfcc_none_nodup _ y false (tfcc_none_nodup m y true hE) z

theorem updEdgesAdd_source (m : Model) (p e x : Nat) :
    ((updEdgesAdd m p e).cells x).source = (m.cells x).source := by
  rw [updEdgesAdd_cells]
  split_ifs with h1 h2
  · rfl
  · subst h2; rfl
  · rfl

theorem updEdgesAdd_target (m : Model) (p e x : Nat) :
    ((updEdgesAdd m p e).cells x).target = (m.cells x).target := by
  rw [updEdgesAdd_cells]
  split_ifs with h1 h2
  · rfl
  · subst h2; rfl
  · rfl

theorem tfcc_true_target_any (m : Model) (e : Nat) (t : Option Nat) (x : Nat) :
    (((terminalForCellChanged m e t true).1).cells x).target = (m.cells x).target := by
  rcases t with _ | tc <;> rcases hp : getTerminalF (m.cells e) true with _ | p <;>
    simp only [terminalForCellChanged, hp]
  · rw [stf_true_target]
    split_ifs
    · rw [updEdgesErase_target]
    · rfl
  · rw [updEdgesAdd_target, stf_true_target]
  · rw [updEdgesAdd_target, stf_true_target]
    split_ifs
    · rw [updEdgesErase_target]
    · rfl

theorem tfcc_reconnect_mono (m : Model) (e S : Nat) (b : Bool)
    (hprev : getTerminalF (m.cells e) b = some S) (z w : Nat)
    (hw : w ∈ (m.cells z).edges) :
    w ∈ (((terminalForCellChanged m e (some S) b).1).cells z).edges := by
  simp only [terminalForCellChanged, hprev]
  rw [if_neg (by simp)]
  simp only [updEdgesAdd_edges, stf_edges]
  split_ifs <;>
    first
    | exact hw
    | (rename_i h; subst h; exact List.mem_append_left _ hw)

theorem tfcc_reconnect_self (m : Model) (e S : Nat) (b : Bool)
    (hprev : getTerminalF (m.cells e) b = some S) :
    e ∈ (((terminalForCellChanged m e (some S) b).1).cells S).edges := by
  simp only [terminalForCellChanged, hprev]
  rw [if_neg (by simp)]
  simp only [updEdgesAdd_edges, stf_edges]
  split_ifs <;>
    first
    | assumption
    | exact List.mem_append_right _ (by simp)
    | (rename_i h; exact absurd rfl h)

/-- The reconnect pass on one cell never removes incident-edge entries and
registers the cell at both of its terminals. -/
theorem ct_true_adds (m : Model) (y : Nat) :
    (∀ z w, w ∈ (m.cells z).edges → w ∈ ((connectTerminals m y true).cells z).edges)
    ∧ (∀ S, (m.cells y).source = some S →
        y ∈ ((connectTerminals m y true).cells S).edges)
    ∧ (∀ T, (m.cells y).target = some T →
        y ∈ ((connectTerminals m y true).cells T).edges) := by
  rcases hs : (m.cells y).source with _ | s0 <;> rcases ht : (m.cells y).target with _ | t0 <;>
    simp only [connectTerminals, hs, ht]
  · refine ⟨fun z w hw => ?_, fun S hS => absurd hS (by simp),
      fun T hT => absurd hT (by simp)⟩
    rw [stf_edges, stf_edges]
    exact hw
  · have hprev : getTerminalF (m.cells y) false = some t0 := by simp [getTerminalF, ht]
    refine ⟨fun z w hw => ?_, fun S hS => absurd hS (by simp), fun T hT => ?_⟩
    · rw [stf_edges, stf_edges]
      exact tfcc_reconnect_mono m y t0 false hprev z w hw
    · obtain rfl : t0 = T := Option.some.inj hT
      rw [stf_edges, stf_edges]
      exact tfcc_reconnect_self m y t0 false hprev
  · have hprev : getTerminalF (m.cells y) true = some s0 := by simp [getTerminalF, hs]
    refine ⟨fun z w hw => ?_, fun S hS => ?_, fun T hT => absurd hT (by simp)⟩
    · rw [stf_edges, stf_edges]
      exact tfcc_reconnect_mono m y s0 true hprev z w hw
    · obtain rfl : s0 = S := Option.some.inj hS
      rw [stf_edges, stf_edges]
      exact tfcc_reconnect_self m y s0 true hprev
  · have hprev1 : getTerminalF (m.cells y) true = some s0 := by simp [getTerminalF, hs]
    have hprev2 : getTerminalF (((terminalForCellChanged m y (some s0) true).1).cells y)
        false = some t0 := by
      simpa [getTerminalF] using (tfcc_true_target_any m y (some s0) y).trans ht
    refine ⟨fun z w hw => ?_, fun S hS => ?_, fun T hT => ?_⟩
    · rw [stf_edges, stf_edges]
      exact tfcc_reconnect_mono _ y t0 false hprev2 z w
        (tfcc_reconnect_mono m y s0 true hprev1 z w hw)
    · obtain rfl : s0 = S := Option.some.inj hS
      rw [stf_edges, stf_edges]
      exact tfcc_reconnect_mono _ y t0 false hprev2 s0 y
        (tfcc_reconnect_self m y s0 true hprev1)
    · obtain rfl : t0 = T := Option.some.inj hT
      rw [stf_edges, stf_edges]
      exact tfcc_reconnect_self _ y t0 false hprev2

theorem fold_ct_true_mono (L : List Nat) : ∀ (s : Model) (z w : Nat),
    w ∈ (s.cells z).edges →
    w ∈ ((L.foldl (fun st k => connectTerminals st k true) s).cells z).edges := by
  intro s z w hw
  refine foldl_inv (fun st => w ∈ (st.cells z).edges) _ ?_ L s hw
  intro s2 a h2
  exact (ct_true_adds s2 a).1 z w h2

theorem fold_true_restores (L : List Nat) : ∀ (s : Model) (x : Nat), x ∈ L →
    (∀ S, (s.cells x).source = some S →
      x ∈ ((L.foldl (fun st k => connectTerminals st k true) s).cells S).edges)
    ∧ (∀ T, (s.cells x).target = some T →
      x ∈ ((L.foldl (fun st k => connectTerminals st k true) s).cells T).edges) := by
  induction L with
  | nil =>
    intro s x hx
    cases hx
  | cons a t ih =>
    intro s x hx
    simp only [List.foldl_cons]
    rcases List.mem_cons.mp hx with hxa | hxt
    · subst hxa
      constructor
      · intro S hS
        exact fold_ct_true_mono t _ S x ((ct_true_adds s x).2.1 S hS)
      · intro T hT
        exact fold_ct_true_mono t _ T x ((ct_true_adds s x).2.2 T hT)
    · have hsrc := sansE_source (ct_sansE s a true x)
      have htgt := sansE_target (ct_sansE s a true x)
      constructor
      · intro S hS
        exact (ih (connectTerminals s a true) x hxt).1 S (hsrc.trans hS)
      · intro T hT
        exact (ih (connectTerminals s a true) x hxt).2 T (htgt.trans hT)

theorem fold_ct_false_subset (L : List Nat) : ∀ (s : Model) (z w : Nat),
    w ∈ ((L.foldl (fun st k => connectTerminals st k false) s).cells z).edges →
    w ∈ (s.cells z).edges := by
  induction L with
  | nil => intro s z w h; exact h
  | cons a t ih =>
    intro s z w h
    exact ct_false_edges_subset s a z w (ih (connectTerminals s a false) z w h)

theorem fold_ct_false_nodupE (L : List Nat) : ∀ (s : Model),
    (∀ z, ((s.cells z).edges).Nodup) →
    ∀ z, (((L.foldl (fun st k => connectTerminals st k false) s).cells z).edges).Nodup := by
  intro s hs
  intro z
  refine foldl_inv (fun st => ∀ z2, ((st.cells z2).edges).Nodup) _ ?_ L s hs z
  intro s2 a h2
  exact ct_false_nodupE s2 a h2

theorem fold_false_severs (L : List Nat) : ∀ (s : Model),
    (∀ z, ((s.cells z).edges).Nodup) → ∀ x, x ∈ L →
    (∀ S, (s.cells x).source = some S →
      x ∉ ((L.foldl (fun st k => connectTerminals st k false) s).cells S).edges)
    ∧ (∀ T, (s.cells x).target = some T →
      x ∉ ((L.foldl (fun st k => connectTerminals st k false) s).cells T).edges) := by
  induction L with
  | nil =>
    intro s _ x hx
    cases hx
  | cons a t ih =>
    intro s hE x hx
    simp only [List.foldl_cons]
    rcases List.mem_cons.mp hx with hxa | hxt
    · subst hxa
      constructor
      · intro S hS hmem
        exact (ct_false_sever s x hE).1 S hS (fold_ct_false_subset t _ S x hmem)
      · intro T hT hmem
        exact (ct_false_sever s x hE).2 T hT (fold_ct_false_subset t _ T x hmem)
    · have hsrc := sansE_source (ct_sansE s a false x)
      have htgt := sansE_target (ct_sansE s a false x)
      have hE2 := fun z => ct_false_nodupE s a hE z
      constructor
      · intro S hS
        exact (ih (connectTerminals s a false) hE2 x hxt).1 S (hsrc.trans hS)
      · intro T hT
        exact (ih (connectTerminals s a false) hE2 x hxt).2 T (htgt.trans hT)

/-- The disconnect cascade severs every visited cell from the incident-edge
views of both of its terminals. -/
theorem connectF_false_severs (f : Nat) (m : Model) (c : Nat)
    (hE : ∀ z, ((m.cells z).edges).Nodup) (x : Nat) (hx : x ∈ traverseOrder f m c) :
    (∀ S, (m.cells x).source = some S →
      x ∉ ((connectF f m c false).cells S).edges)
    ∧ (∀ T, (m.cells x).target = some T →
      x ∉ ((connectF f m c false).cells T).edges) := by
  rw [connectF_decomp]
  exact fold_false_severs (traverseOrder f m c) m hE x hx

/-- The reconnect cascade registers every visited cell back at both of its
terminals. -/
theorem connectF_true_restores (f : Nat) (m : Model) (c : Nat) (x : Nat)
    (hx : x ∈ traverseOrder f m c) :
    (∀ S, (m.cells x).source = some S →
      x ∈ ((connectF f m c true).cells S).edges)
    ∧ (∀ T, (m.cells x).target = some T →
      x ∈ ((connectF f m c true).cells T).edges) := by
  rw [connectF_decomp]
  exact fold_true_restores (traverseOrder f m c) m x hx

theorem traverseOrder_congr_desc (n : Nat) : ∀ (m m' : Model) (c : Nat),
    (∀ y, Desc m c y → (m'.cells y).children = (m.cells y).children) →
    traverseOrder n m' c = traverseOrder n m c := by
  induction n with
  | zero => intro m m' c _; rfl
  | succ k ih =>
    intro m m' c h
    simp only [traverseOrder, h c (Desc.refl c)]
    refine congrArg (fun L => c :: L) (congrArg List.flatten ?_)
    refine List.map_congr_left (fun a ha => ?_)
    exact ih m m' a (fun y hy => h y (Desc.child ha hy))

theorem exec_detach_edges (f : Nat) (m : Model) (r : ChildChange)
    (hdet : r.previous = none) (z : Nat) :
    (((ChildChange.executeF f m r).1).cells z).edges
      = ((connectF f m r.child false).cells z).edges := by
  simp only [ChildChange.executeF, hdet]
  rw [pcc_edges]

/-! ## Terminal mixin (translated from the reviewed source) -/

/-- One iteration of the loop of `TerminalMixin.getOpposites`: the
accumulator is the dictionary of already-pushed cells together with the
result list, and the pair holds the visible source and target the view
reports for the edge. -/
def getOppositesStep (terminal : Option Nat) (includeSources includeTargets : Bool)
    (acc : List Nat × List Nat) (st : Option Nat × Option Nat) :
    List Nat × List Nat :=
  let source := st.1
  let target := st.2
  if source = terminal ∧ target ≠ none ∧ target ≠ terminal ∧ includeTargets = true then
    match target with
    | some t => if t ∈ acc.1 then acc else (acc.1 ++ [t], acc.2 ++ [t])
    | none => acc
  else if target = terminal ∧ source ≠ none ∧ source ≠ terminal ∧ includeSources = true then
    match source with
    | some s => if s ∈ acc.1 then acc else (acc.1 ++ [s], acc.2 ++ [s])
    | none => acc
  else acc

/-- `TerminalMixin.getOpposites`: fold the step over the edges; the view's
visible-terminal lookup is a collaborator function from edge and flag to
an optional cell. -/
def getOpposites (vis : Nat → Bool → Option Nat) (edges : List Nat)
    (terminal : Option Nat) (includeSources includeTargets : Bool) : List Nat :=
  (edges.foldl
    (fun acc e => getOppositesStep terminal includeSources includeTargets acc
      (vis e true, vis e false))
    ([], [])).2

/-! ## A concrete document used by the witnesses

Cell 0 is the root with children 1 and 3; cell 1 holds the edge cell 2,
whose source terminal is the vertex 3; cell 3 lists 2 in its incident-edge
view. -/

def Wcells : Nat → CellObj := fun n =>
  if n = 0 then ⟨none, [1, 3], none, none, [], false, none⟩
  else if n = 1 then ⟨some 0, [2], none, none, [], false, none⟩
  else if n = 2 then ⟨some 1, [], some 3, none, [], false, none⟩
  else if n = 3 then ⟨some 0, [], none, none, [2], false, none⟩
  else ⟨none, [], none, none, [], false, none⟩

def W : Model := ⟨Wcells, fun _ => ⟨0, 0, 0, 0, none⟩, 0⟩

theorem W_nodup : ∀ x, ((W.cells x).children).Nodup := by
  intro x
  show ((Wcells x).children).Nodup
  unfold Wcells
  split_ifs <;> decide

theorem W_nodupE : ∀ x, ((W.cells x).edges).Nodup := by
  intro x
  show ((Wcells x).edges).Nodup
  unfold Wcells
  split_ifs <;> decide

theorem W_pc : ∀ x p, (W.cells x).parent = some p → x ∈ ((W.cells p).children) := by
  intro x p h
  show x ∈ ((Wcells p).children)
  have h' : (Wcells x).parent = some p := h
  unfold Wcells at h'
  split_ifs at h' with h0 h1 h2 h3
  · obtain rfl : (0 : Nat) = p := by simpa using h'
    subst h1
    decide
  · obtain rfl : (1 : Nat) = p := by simpa using h'
    subst h2
    decide
  · obtain rfl : (0 : Nat) = p := by simpa using h'
    subst h3
    decide

theorem W_cp : ∀ p x, x ∈ ((W.cells p).children) → (W.cells x).parent = some p := by
  intro p x h
  show (Wcells x).parent = some p
  have h' : x ∈ ((Wcells p).children) := h
  unfold Wcells at h'
  split_ifs at h' with h0 h1 h2 h3
  · subst h0
    have h2 : x = 1 ∨ x = 3 := by simpa using h'
    rcases h2 with rfl | rfl <;> decide
  · subst h1
    obtain rfl : x = 2 := by simpa using h'
    decide
  · exact absurd h' (by simp)
  · exact absurd h' (by simp)
  · exact absurd h' (by simp)

/-! ## Claim theorems -/

/-- C1: for every ChildChange record and any well-formed document state
(child sequences duplicate-free and consistent with the parent links, the
invariants of reachable documents), calling `execute` twice in succession
returns every attribute the record touches — the parent link and the child
sequences (hence the child's index) of every cell, and the terminal
references of the moved cell and all of its descendants (indeed of every
cell) — to the value it had before the first call. -/
theorem c1_execute_twice_restores (fuel fuel2 : Nat) (m : Model) (r : ChildChange)
    (hn : ∀ x, ((m.cells x).children).Nodup)
    (hpc : ∀ x p, (m.cells x).parent = some p → x ∈ ((m.cells p).children))
    (hcp : ∀ p x, x ∈ ((m.cells p).children) → (m.cells x).parent = some p) :
    ∀ x,
      (((ChildChange.executeF fuel2 (ChildChange.executeF fuel m r).1
          (ChildChange.executeF fuel m r).2).1).cells x).parent = (m.cells x).parent
      ∧ (((ChildChange.executeF fuel2 (ChildChange.executeF fuel m r).1
          (ChildChange.executeF fuel m r).2).1).cells x).children = (m.cells x).children
      ∧ (((ChildChange.executeF fuel2 (ChildChange.executeF fuel m r).1
          (ChildChange.executeF fuel m r).2).1).cells x).source = (m.cells x).source
      ∧ (((ChildChange.executeF fuel2 (ChildChange.executeF fuel m r).1
          (ChildChange.executeF fuel m r).2).1).cells x).target = (m.cells x).target :=
  exec_exec_restore fuel fuel2 m r hn hpc hcp

theorem c1_witness :
    ((ChildChange.executeF 3 (ChildChange.executeF 3 W (ChildChange.make (some 3) 1 0)).1
        (ChildChange.executeF 3 W (ChildChange.make (some 3) 1 0)).2).1.cells 0).children
      = (W.cells 0).children
    ∧ ((ChildChange.executeF 3 (ChildChange.executeF 3 W (ChildChange.make (some 3) 1 0)).1
        (ChildChange.executeF 3 W (ChildChange.make (some 3) 1 0)).2).1.cells 1).parent
      = (W.cells 1).parent := by
  have h := c1_execute_twice_restores 3 3 W (ChildChange.make (some 3) 1 0) W_nodup W_pc W_cp
  exact ⟨(h 0).2.1, (h 1).1⟩

/-- C3, counterexample: the constructor of ChildChange does not store the
immediately-previous parent and index of the target cell.  In the document
`W` the cell 1 currently sits under parent 0 at index 0, yet the record
constructed for a move to parent 3 at index 1 stores parent 3 and index 1
in its previous fields. -/
theorem c3_counterexample :
    ¬ ((ChildChange.make (some 3) 1 1).previous = (W.cells 1).parent
       ∧ (ChildChange.make (some 3) 1 1).previousIndex
           = getIndexJS ((W.cells 0).children) 1) := by
  decide

/-- C3 (amended): as constructed, a Reparent record stores the requested
new parent and index in both its current and previous fields; it is the
first `execute` call that captures the cell's immediately-previous parent
and index into the previous fields, and this captured state makes
`execute` its own inverse on every attribute the record touches. -/
theorem c3_amended_capture_on_execute (p : Option Nat) (c i fuel fuel2 : Nat)
    (m : Model)
    (hn : ∀ x, ((m.cells x).children).Nodup)
    (hpc : ∀ x q, (m.cells x).parent = some q → x ∈ ((m.cells q).children))
    (hcp : ∀ q x, x ∈ ((m.cells q).children) → (m.cells x).parent = some q) :
    ((ChildChange.make p c i).previous = p
      ∧ (ChildChange.make p c i).previousIndex = i)
    ∧ ((ChildChange.executeF fuel m (ChildChange.make p c i)).2.previous
        = (m.cells c).parent
      ∧ (ChildChange.executeF fuel m (ChildChange.make p c i)).2.previousIndex
        = execIdx m c)
    ∧ (∀ x,
        (((ChildChange.executeF fuel2 (ChildChange.executeF fuel m (ChildChange.make p c i)).1
            (ChildChange.executeF fuel m (ChildChange.make p c i)).2).1).cells x).parent
          = (m.cells x).parent
        ∧ (((ChildChange.executeF fuel2 (ChildChange.executeF fuel m (ChildChange.make p c i)).1
            (ChildChange.executeF fuel m (ChildChange.make p c i)).2).1).cells x).children
          = (m.cells x).children) := by
  refine ⟨⟨rfl, rfl⟩, ⟨?_, ?_⟩, fun x => ⟨(exec_exec_restore fuel fuel2 m _ hn hpc hcp x).1,
    (exec_exec_restore fuel fuel2 m _ hn hpc hcp x).2.1⟩⟩
  · rw [exec_snd]; rfl
  · rw [exec_snd]; rfl

theorem c3_amended_witness :
    (ChildChange.executeF 3 W (ChildChange.make (some 3) 1 1)).2.previous = some 0
    ∧ (ChildChange.executeF 3 W (ChildChange.make (some 3) 1 1)).2.previousIndex = 0 := by
  have h := c3_amended_capture_on_execute (some 3) 1 1 3 3 W W_nodup W_pc W_cp
  exact ⟨h.2.1.1, h.2.1.2⟩

/-- C4: the detach/reattach cascade processes the children of every visited
cell in their existing index order — `connect` equals the fold of the
per-cell terminal pass over the preorder traversal list — the restoration
pass visits the same order because the cascade leaves every child sequence
unchanged, and a double `execute` leaves every traversal order unchanged,
so repeated execute/undo cycles visit cells deterministically in the same
sequence. -/
theorem c4_cascade_index_order (f g : Nat) (m : Model) (c : Nat) (b : Bool)
    (r : ChildChange) (fuel fuel2 : Nat)
    (hn : ∀ x, ((m.cells x).children).Nodup)
    (hpc : ∀ x p, (m.cells x).parent = some p → x ∈ ((m.cells p).children))
    (hcp : ∀ p x, x ∈ ((m.cells p).children) → (m.cells x).parent = some p) :
    connectF f m c b
      = (traverseOrder f m c).foldl (fun st k => connectTerminals st k b) m
    ∧ (∀ c2, traverseOrder g (connectF f m c b) c2 = traverseOrder g m c2)
    ∧ (∀ c2, traverseOrder g
        ((ChildChange.executeF fuel2 (ChildChange.executeF fuel m r).1
          (ChildChange.executeF fuel m r).2).1) c2 = traverseOrder g m c2) :=
  ⟨connectF_decomp f m c b,
   fun c2 => traverseOrder_congr g m _ c2 (fun y => cf_children f m c b y),
   fun c2 => traverseOrder_congr g m _ c2
     (fun y => (exec_exec_restore fuel fuel2 m r hn hpc hcp y).2.1)⟩

theorem c4_witness :
    connectF 3 W 1 false
      = (traverseOrder 3 W 1).foldl (fun st k => connectTerminals st k false) W
    ∧ traverseOrder 3
        ((ChildChange.executeF 3 (ChildChange.executeF 3 W (ChildChange.make none 1 0)).1
          (ChildChange.executeF 3 W (ChildChange.make none 1 0)).2).1) 1
      = traverseOrder 3 W 1 := by
  have h := c4_cascade_index_order 3 3 W 1 false (ChildChange.make none 1 0) 3 3
    W_nodup W_pc W_cp
  exact ⟨h.1, h.2.2 1⟩

/-- C8: after the disconnect pass `connect(cell, false)`, every cell still
reports its original source and target through its own terminal fields,
even though every visited cell was severed from the incident-edge views of
its terminals; this locally preserved state is what the reconnect pass
reads when it restores the connections. -/
theorem c8_disconnect_preserves_fields (f : Nat) (m : Model) (c : Nat)
    (hE : ∀ z, ((m.cells z).edges).Nodup) (hd : depthOk f m c = true) :
    (∀ x, ((connectF f m c false).cells x).source = (m.cells x).source
        ∧ ((connectF f m c false).cells x).target = (m.cells x).target)
    ∧ (∀ x, Desc m c x →
        (∀ S, (m.cells x).source = some S →
          x ∉ ((connectF f m c false).cells S).edges)
        ∧ (∀ T, (m.cells x).target = some T →
          x ∉ ((connectF f m c false).cells T).edges)) :=
  ⟨fun x => ⟨cf_source f m c false x, cf_target f m c false x⟩,
   fun x hx => connectF_false_severs f m c hE x (desc_mem_traverseOrder hx f hd)⟩

theorem c8_witness :
    ((connectF 3 W 1 false).cells 2).source = some 3
    ∧ 2 ∉ ((connectF 3 W 1 false).cells 3).edges := by
  have h := c8_disconnect_preserves_fields 3 W 1 W_nodupE (by decide)
  have hdesc : Desc W 1 2 := Desc.child (by decide) (Desc.refl 2)
  exact ⟨(h.1 2).1, (h.2 2 hdesc).1 3 rfl⟩

/-- C2: when a ChildChange detaches a cell (stored previous parent null),
the model-level terminal connections of the cell and, recursively, of every
one of its descendants are severed — each is removed from the incident-edge
view of its terminals — and when the same record reattaches the cell (its
captured previous parent being non-null, and not a descendant of the moved
cell) every severed connection is re-registered and every terminal
reference holds its exact prior value. -/
theorem c2_detach_severs_reattach_restores (fuel fuel2 : Nat) (m : Model)
    (r : ChildChange) (qp : Nat)
    (hdet : r.previous = none)
    (hq : (m.cells r.child).parent = some qp)
    (hnc : ¬ Desc m r.child qp)
    (hE : ∀ z, ((m.cells z).edges).Nodup)
    (hd1 : depthOk fuel m r.child = true)
    (hd2 : depthOk fuel2 m r.child = true) :
    ∀ x, Desc m r.child x →
      (∀ S, (m.cells x).source = some S →
        x ∉ (((ChildChange.executeF fuel m r).1).cells S).edges
        ∧ x ∈ (((ChildChange.executeF fuel2 (ChildChange.executeF fuel m r).1
            (ChildChange.executeF fuel m r).2).1).cells S).edges)
      ∧ (∀ T, (m.cells x).target = some T →
        x ∉ (((ChildChange.executeF fuel m r).1).cells T).edges
        ∧ x ∈ (((ChildChange.executeF fuel2 (ChildChange.executeF fuel m r).1
            (ChildChange.executeF fuel m r).2).1).cells T).edges)
      ∧ (((ChildChange.executeF fuel2 (ChildChange.executeF fuel m r).1
            (ChildChange.executeF fuel m r).2).1).cells x).source = (m.cells x).source
      ∧ (((ChildChange.executeF fuel2 (ChildChange.executeF fuel m r).1
            (ChildChange.executeF fuel m r).2).1).cells x).target = (m.cells x).target := by
  intro x hdesc
  have hx1 : x ∈ traverseOrder fuel m r.child :=
    desc_mem_traverseOrder hdesc fuel hd1
  have hsev := connectF_false_severs fuel m r.child hE x hx1
  have hed := exec_detach_edges fuel m r hdet
  have hr1 := exec_snd fuel m r
  have hshape : (ChildChange.executeF fuel2 (ChildChange.executeF fuel m r).1
      (ChildChange.executeF fuel m r).2).1
      = connectF fuel2
          (parentForCellChanged (ChildChange.executeF fuel m r).1 r.child (some qp)
            (execIdx m r.child)).1 r.child true := by
    rw [hr1]
    simp only [ChildChange.executeF, hq]
  have hstab : ∀ y, Desc m r.child y →
      ((parentForCellChanged (ChildChange.executeF fuel m r).1 r.child (some qp)
        (execIdx m r.child)).1.cells y).children = (m.cells y).children := by
    intro y hy
    have hyqp : qp ≠ y := fun h => hnc (by rw [h]; exact hy)
    rw [pcc_children]
    rw [if_neg (by simpa using hyqp)]
    have hm1cp : ((ChildChange.executeF fuel m r).1.cells r.child).parent = none := by
      rw [exec_parent]; simp [hdet]
    have hpccE1 : pccE (ChildChange.executeF fuel m r).1 r.child y
        = ((ChildChange.executeF fuel m r).1.cells y).children := by
      simp [pccE, hm1cp]
    rw [hpccE1, exec_children]
    rw [if_neg (by simp [hdet])]
    simp [pccE, hq, hyqp]
  have htro : traverseOrder fuel2
      ((parentForCellChanged (ChildChange.executeF fuel m r).1 r.child (some qp)
        (execIdx m r.child)).1) r.child
      = traverseOrder fuel2 m r.child :=
    traverseOrder_congr_desc fuel2 m _ r.child hstab
  have hx2 : x ∈ traverseOrder fuel2
      ((parentForCellChanged (ChildChange.executeF fuel m r).1 r.child (some qp)
        (execIdx m r.child)).1) r.child := by
    rw [htro]
    exact desc_mem_traverseOrder hdesc fuel2 hd2
  have hsrc2 : (((parentForCellChanged (ChildChange.executeF fuel m r).1 r.child (some qp)
      (execIdx m r.child)).1).cells x).source = (m.cells x).source := by
    rw [pcc_source, exec_source]
  have htgt2 : (((parentForCellChanged (ChildChange.executeF fuel m r).1 r.child (some qp)
      (execIdx m r.child)).1).cells x).target = (m.cells x).target := by
    rw [pcc_target, exec_target]
  have hres := connectF_true_restores fuel2
    ((parentForCellChanged (ChildChange.executeF fuel m r).1 r.child (some qp)
      (execIdx m r.child)).1) r.child x hx2
  refine ⟨?_, ?_, ?_, ?_⟩
  · intro S hS
    constructor
    · rw [hed S]
      exact hsev.1 S hS
    · rw [hshape]
      exact hres.1 S (hsrc2.trans hS)
  · intro T hT
    constructor
    · rw [hed T]
      exact hsev.2 T hT
    · rw [hshape]
      exact hres.2 T (htgt2.trans hT)
  · rw [hshape, cf_source, pcc_source, exec_source]
  · rw [hshape, cf_target, pcc_target, exec_target]

theorem c2_witness :
    2 ∉ (((ChildChange.executeF 3 W (ChildChange.make none 1 0)).1).cells 3).edges
    ∧ 2 ∈ (((ChildChange.executeF 3 (ChildChange.executeF 3 W (ChildChange.make none 1 0)).1
        (ChildChange.executeF 3 W (ChildChange.make none 1 0)).2).1).cells 3).edges
    ∧ (((ChildChange.executeF 3 (ChildChange.executeF 3 W (ChildChange.make none 1 0)).1
        (ChildChange.executeF 3 W (ChildChange.make none 1 0)).2).1).cells 2).source
      = some 3 := by
  have hnc : ¬ Desc W 1 0 := by
    intro h
    have hmem := desc_mem_traverseOrder h 3 (by decide)
    revert hmem
    decide
  have h := c2_detach_severs_reattach_restores 3 3 W (ChildChange.make none 1 0) 0
    rfl rfl hnc W_nodupE (by decide) (by decide)
  have hdesc : Desc W 1 2 := Desc.child (by decide) (Desc.refl 2)
  have h2 := h 2 hdesc
  exact ⟨(h2.1 3 rfl).1, (h2.1 3 rfl).2, h2.2.2.1⟩

/-- C5: a cell whose collapsed flag already equals the requested value is
left entirely unchanged by cellsFolded: the loop body is the identity for
it — no setCollapsed call, no geometry swap, no record — and a call whose
cells are all already at the requested value returns the document state
and the record list unchanged, recording zero changes. -/
theorem c5_redundant_fold_is_noop (co : FoldCollab) (fuel : Nat)
    (collapse recurse chk : Bool)
    (rc : Model → List Chg → List Nat → Model × List Chg) :
    (∀ (mr : Model × List Chg) (cell : Nat),
      (mr.1.cells cell).collapsed = collapse →
      foldStep co rc collapse recurse chk mr cell = mr)
    ∧ (∀ (m : Model) (recs : List Chg) (cells : List Nat),
        (∀ c ∈ cells, (m.cells c).collapsed = collapse) →
        cellsFolded co fuel m recs cells collapse recurse chk = (m, recs)) := by
  have hstep : ∀ (rc2 : Model → List Chg → List Nat → Model × List Chg)
      (mr : Model × List Chg) (cell : Nat),
      (mr.1.cells cell).collapsed = collapse →
      foldStep co rc2 collapse recurse chk mr cell = mr := by
    intro rc2 mr cell h
    unfold foldStep
    rw [if_neg]
    simp [h]
  refine ⟨hstep rc, ?_⟩
  intro m recs cells hcells
  cases fuel with
  | zero => rfl
  | succ n =>
    show cells.foldl _ (m, recs) = (m, recs)
    have haux : ∀ (l : List Nat), (∀ c ∈ l, (m.cells c).collapsed = collapse) →
        l.foldl (foldStep co
          (fun m2 r2 cs => cellsFolded co n m2 r2 cs collapse recurse false)
          collapse recurse chk) (m, recs) = (m, recs) := by
      intro l
      induction l with
      | nil => intro _; rfl
      | cons a t ih =>
        intro hl
        simp only [List.foldl_cons]
        rw [hstep _ (m, recs) a (hl a (List.mem_cons_self a t))]
        exact ih (fun c hc => hl c (List.mem_cons_of_mem a hc))
    exact haux cells hcells

/-- A trivial set of collaborators used by the witnesses. -/
def co0 : FoldCollab :=
  ⟨fun _ _ => ⟨none, none⟩, fun _ _ => false, fun mr _ => mr, fun mr _ => mr,
   fun _ _ g _ => g⟩

theorem c5_witness :
    cellsFolded co0 3 W [] [1] false false false = (W, []) := by
  refine (c5_redundant_fold_is_noop co0 3 false false false
    (fun m2 r2 _ => (m2, r2))).2 W [] [1] ?_
  intro c hc
  obtain rfl : c = 1 := by simpa using hc
  rfl

/-- C6: swapBounds mutates the document through exactly one Document Model
setGeometry call per invocation — appending exactly one geometry change
record — and operates on a freshly allocated clone of the cell's geometry:
the stored original geometry object keeps its value and only the cell's
reference moves to the clone.  When the cell has no geometry it performs
no mutation at all. -/
theorem c6_swapBounds_single_setGeometry (co : FoldCollab) (m : Model)
    (recs : List Chg) (cell : Nat) (w : Bool) :
    ((m.cells cell).geometry = none → swapBounds co m recs cell w = (m, recs))
    ∧ (∀ gid, (m.cells cell).geometry = some gid → gid < m.nextGeom →
        (swapBounds co m recs cell w).2
          = recs ++ [Chg.geom cell (some gid) (some m.nextGeom)]
        ∧ ((swapBounds co m recs cell w).1).geoms gid = m.geoms gid
        ∧ (((swapBounds co m recs cell w).1).cells cell).geometry
            = some m.nextGeom) := by
  constructor
  · intro h
    unfold swapBounds
    rw [h]
  · intro gid hg hlt
    unfold swapBounds
    rw [hg]
    unfold setGeometryM allocGeom
    dsimp only
    have hne : ¬ ((m.cells cell).geometry = some m.nextGeom) := by
      rw [hg]
      simp only [Option.some.injEq]
      omega
    rw [if_neg hne]
    refine ⟨by rw [hg], ?_, ?_⟩
    · rw [updCell_geoms]
      dsimp only
      rw [if_neg (by omega)]
    · simp [updCell_cells]

def WG : Model :=
  ⟨fun n => if n = 5 then ⟨none, [], none, none, [], false, some 0⟩ else Wcells n,
   fun _ => ⟨1, 2, 3, 4, none⟩, 1⟩

theorem c6_witness :
    (swapBounds co0 WG [] 5 true).2 = [Chg.geom 5 (some 0) (some 1)]
    ∧ ((swapBounds co0 WG [] 5 true).1).geoms 0 = WG.geoms 0 := by
  have h := (c6_swapBounds_single_setGeometry co0 WG [] 5 true).2 0 rfl (by decide)
  exact ⟨h.1, h.2.1⟩

/-- C7: getFoldableCells returns, via the Document Model's filterCells, a
new ordered sequence containing exactly those cells of the input for which
isCellFoldable holds, preserving the input order (the result is a sublist
of the input); the input list is a value that the call leaves untouched. -/
theorem c7_getFoldableCells_filters (co : FoldCollab) (m : Model)
    (cells : List Nat) (collapse : Bool) :
    getFoldableCells co m cells collapse
      = cells.filter (fun cell => isCellFoldable co m cell collapse)
    ∧ List.Sublist (getFoldableCells co m cells collapse) cells
    ∧ (∀ c, c ∈ getFoldableCells co m cells collapse
        ↔ c ∈ cells ∧ isCellFoldable co m c collapse = true) :=
  ⟨rfl, List.filter_sublist cells, fun _ => List.mem_filter⟩

theorem c7_witness : getFoldableCells co0 W [0, 1, 2] false = [0, 1] := by
  rw [(c7_getFoldableCells_filters co0 W [0, 1, 2] false).1]
  decide

/-- C9: isCellEditable returns false for every cell whose resolved style
does not set the editable key to true — even when cellsEditable is true
and the cell is not locked — and returns true exactly when cellsEditable
holds, the cell is not locked, and the style's editable key is true. -/
theorem c9_style_gates_editability (co : EditCollab) (cellsEditable : Bool)
    (cell : Nat) :
    ((co.getCurrentCellStyle cell).editable ≠ some true →
      isCellEditable co cellsEditable cell = false)
    ∧ (isCellEditable co cellsEditable cell = true
        ↔ cellsEditable = true ∧ co.isCellLocked cell = false
          ∧ (co.getCurrentCellStyle cell).editable = some true) := by
  constructor
  · intro h
    unfold isCellEditable isCellsEditableF
    rcases he : (co.getCurrentCellStyle cell).editable with _ | b
    · simp [he]
    · cases b
      · simp [he]
      · exact absurd he h
  · unfold isCellEditable isCellsEditableF
    rcases he : (co.getCurrentCellStyle cell).editable with _ | b
    · cases cellsEditable <;> cases hl : co.isCellLocked cell <;> simp [he, hl]
    · cases b <;> cases cellsEditable <;> cases hl : co.isCellLocked cell <;>
        simp [he, hl]

theorem c9_witness :
    isCellEditable ⟨fun _ => ⟨none, none⟩, fun _ => false⟩ true 0 = false :=
  (c9_style_gates_editability ⟨fun _ => ⟨none, none⟩, fun _ => false⟩ true 0).1
    (by simp)

theorem getOppositesStep_pres (terminal : Option Nat) (iS iT : Bool)
    (acc : List Nat × List Nat) (st : Option Nat × Option Nat)
    (h1 : acc.2.Nodup) (h2 : ∀ z, z ∈ acc.2 ↔ z ∈ acc.1)
    (h3 : ∀ z ∈ acc.2, some z ≠ terminal) :
    (getOppositesStep terminal iS iT acc st).2.Nodup
    ∧ (∀ z, z ∈ (getOppositesStep terminal iS iT acc st).2
        ↔ z ∈ (getOppositesStep terminal iS iT acc st).1)
    ∧ (∀ z ∈ (getOppositesStep terminal iS iT acc st).2, some z ≠ terminal) := by
  unfold getOppositesStep
  dsimp only
  split_ifs with hc1 hc2
  · rcases htgt : st.2 with _ | t
    · exact ⟨h1, h2, h3⟩
    · dsimp only
      split_ifs with hmem
      · exact ⟨h1, h2, h3⟩
      · have htne : some t ≠ terminal := htgt ▸ hc1.2.2.1
        have htacc : t ∉ acc.2 := fun hh => hmem ((h2 t).mp hh)
        refine ⟨?_, ?_, ?_⟩
        · simp [List.nodup_append, h1, htacc]
        · intro z
          simp [List.mem_append, h2 z]
        · intro z hz
          rcases List.mem_append.mp hz with hz1 | hz2
          · exact h3 z hz1
          · obtain rfl : z = t := by simpa using hz2
            exact htne
  · rcases hsrc : st.1 with _ | s
    · exact ⟨h1, h2, h3⟩
    · dsimp only
      split_ifs with hmem
      · exact ⟨h1, h2, h3⟩
      · have hsne : some s ≠ terminal := hsrc ▸ hc2.2.2.1
        have hsacc : s ∉ acc.2 := fun hh => hmem ((h2 s).mp hh)
        refine ⟨?_, ?_, ?_⟩
        · simp [List.nodup_append, h1, hsacc]
        · intro z
          simp [List.mem_append, h2 z]
        · intro z hz
          rcases List.mem_append.mp hz with hz1 | hz2
          · exact h3 z hz1
          · obtain rfl : z = s := by simpa using hz2
            exact hsne
  · exact ⟨h1, h2, h3⟩

/-- C10: for every list of edges, terminal, include flags and whatever
visible terminals the view reports, getOpposites returns a list with no
duplicate cells that never contains the given terminal itself. -/
theorem c10_getOpposites_nodup_no_terminal (vis : Nat → Bool → Option Nat)
    (edges : List Nat) (terminal : Option Nat) (iS iT : Bool) :
    (getOpposites vis edges terminal iS iT).Nodup
    ∧ ∀ c, c ∈ getOpposites vis edges terminal iS iT → some c ≠ terminal := by
  have hinv : ∀ (l : List Nat) (acc : List Nat × List Nat),
      acc.2.Nodup → (∀ z, z ∈ acc.2 ↔ z ∈ acc.1) →
      (∀ z ∈ acc.2, some z ≠ terminal) →
      ((l.foldl (fun a e => getOppositesStep terminal iS iT a (vis e true, vis e false))
        acc).2.Nodup
      ∧ (∀ z ∈ (l.foldl (fun a e => getOppositesStep terminal iS iT a
          (vis e true, vis e false)) acc).2, some z ≠ terminal)) := by
    intro l
    induction l with
    | nil => intro acc h1 _ h3; exact ⟨h1, h3⟩
    | cons e t ih =>
      intro acc h1 h2 h3
      simp only [List.foldl_cons]
      obtain ⟨g1, g2, g3⟩ :=
        getOppositesStep_pres terminal iS iT acc (vis e true, vis e false) h1 h2 h3
      exact ih _ g1 g2 g3
  have h := hinv edges ([], []) (by simp) (by simp) (by simp)
  exact ⟨h.1, fun c hc => h.2 c hc⟩

theorem c10_witness :
    (getOpposites (fun _ b => if b then some 7 else some 8) [0, 1, 2] (some 7)
      true true).Nodup
    ∧ 7 ∉ getOpposites (fun _ b => if b then some 7 else some 8) [0, 1, 2] (some 7)
        true true := by
  have h := c10_getOpposites_nodup_no_terminal
    (fun _ b => if b then some 7 else some 8) [0, 1, 2] (some 7) true true
  exact ⟨h.1, fun hc => (h.2 7 hc) rfl⟩
